import Mathlib

/-!
# Verification of the cats-vs-dogs data pipeline

Shallow embedding of the deterministic parts of the `cats_dogs` Python
package (`src/cats_dogs/data.py`, `model.py`, `train.py`, `evaluate.py`,
`predict.py`) together with proofs of the specification claims about them.

Modelling conventions:
* file paths are their POSIX string form (`Path.as_posix`), path part lists
  are `List String`;
* Python floats are modelled as exact rationals `ℚ`;
* the Mersenne-Twister shuffle of `random.Random(seed_string).shuffle` is
  modelled by a deterministic Fisher-Yates shuffle driven by a linear
  congruential generator keyed on the same seed string; every claim uses
  only that the shuffle is a deterministic permutation of its input that
  depends on nothing but the seed string and the input list;
* external image decoding / PIL preprocessing are modelled as oracle
  function parameters, the repository's own arithmetic (histograms,
  splitting, argmax, error guards) is embedded directly;
* filesystem effects of `write_split_manifests` are modelled as an emitted
  list of actions, in the order the source performs them.
-/

namespace CatsDogs

/-! ## Path helpers (`data.py`) -/

/-- `SUPPORTED_SUFFIXES` from `data.py` (a `set` in Python; order irrelevant). -/
def SUPPORTED_SUFFIXES : List String := [".jpg", ".jpeg", ".png"]

/-- `pathlib.PurePath.suffix` restricted to a single path component:
`i = name.rfind('.')`, returning `name[i:]` when `0 < i < len(name) - 1`
and `""` otherwise. -/
def pathSuffix (name : String) : String :=
  let r := name.toList.reverse
  let ext := r.takeWhile (fun c => c ≠ '.')
  if ext.length = r.length then ""
  else if ext.length = 0 then ""
  else if ext.length = r.length - 1 then ""
  else "." ++ String.mk ext.reverse

/-- `_is_image_name` from `data.py`: `Path(name).suffix.lower() in SUPPORTED_SUFFIXES`.
`Path(name).suffix` looks at the final `/`-separated component. -/
def isImageName (name : String) : Bool :=
  SUPPORTED_SUFFIXES.contains (pathSuffix ((name.splitOn "/").getLastD "")).toLower

/-- Loop body of `_infer_label_from_parts`: scan a list of segments
(already reversed by the caller) and return the first cat/dog match. -/
def inferLabelAux : List String → Option String
  | [] => none
  | part :: rest =>
    let lower := part.toLower
    if lower = "cat" ∨ lower = "cats" then some "cat"
    else if lower = "dog" ∨ lower = "dogs" then some "dog"
    else inferLabelAux rest

/-- `_infer_label_from_parts` from `data.py`: iterate over `reversed(parts)`. -/
def inferLabelFromParts (parts : List String) : Option String :=
  inferLabelAux parts.reverse

/-- Specification-side restatement of the label rule, named after the claim's
wording: the *last* segment (first in reverse order) whose lowercase form is
in {cat, cats} / {dog, dogs} decides the label.  Used only to be compared
with `inferLabelFromParts`. -/
def classSegLabel (s : String) : Option String :=
  let lower := s.toLower
  if lower = "cat" ∨ lower = "cats" then some "cat"
  else if lower = "dog" ∨ lower = "dogs" then some "dog"
  else none

/-- The claim's "last matching segment wins" rule, via `find?` on the
reversed segment list. -/
def specLastMatchingLabel (parts : List String) : Option String :=
  (parts.reverse.find? (fun s => (classSegLabel s).isSome)).bind classSegLabel

/-! ## Collection of labeled files (`_collect_from_directory`, `_collect_from_zip`) -/

/-- The per-label path dict `paths_by_label` (always exactly the keys
`"cat"` and `"dog"` in the source). -/
structure PathsByLabel where
  cat : List String
  dog : List String
deriving DecidableEq, Repr

/-- Last element of a part list (`path.name`). -/
def lastPart (parts : List String) : String := parts.getLastD ""

/-- Join path parts into a POSIX path string. -/
def joinPath (parts : List String) : String := String.intercalate "/" parts

/-- The `for path in dataset_root.rglob("*")` loop of `_collect_from_directory`,
as a function of the (file-only) enumeration produced by `rglob`; each file is
given by its `path.parts` list.  Non-image names and files whose parts yield
no label are skipped; matches are appended to their class's list in
enumeration order. -/
def collectFiles : List (List String) → PathsByLabel
  | [] => ⟨[], []⟩
  | parts :: rest =>
    let acc := collectFiles rest
    if isImageName (lastPart parts) then
      if inferLabelFromParts parts = some "cat" then ⟨joinPath parts :: acc.cat, acc.dog⟩
      else if inferLabelFromParts parts = some "dog" then ⟨acc.cat, joinPath parts :: acc.dog⟩
      else acc
    else acc

/-- Errors of the splitter, named after the spec's taxonomy:
`config` = `ValueError` for bad ratio sums, `notFound` = `FileNotFoundError`. -/
inductive SplitError
  | config
  | notFound
deriving DecidableEq, Repr

/-- `_collect_from_directory`: `rootFound` records whether `_find_dataset_root`
succeeded (raw dir exists and a cat/dog directory pair was located); `files`
is the `rglob` enumeration below that root.  Raises `FileNotFoundError` when
the root is missing or no images were collected. -/
def collectFromDirectory (rootFound : Bool) (files : List (List String)) :
    Except SplitError PathsByLabel :=
  if rootFound then
    let pbl := collectFiles files
    if pbl.cat.isEmpty ∧ pbl.dog.isEmpty then .error .notFound else .ok pbl
  else .error .notFound

/-- The `for name in archive.namelist()` loop of `_collect_from_zip`:
skip directory entries (trailing `/`), skip non-image names, infer the label
from `name.split("/")`, and record `raw_dir / name`. -/
def collectZipEntries (rawDir : String) : List String → PathsByLabel
  | [] => ⟨[], []⟩
  | name :: rest =>
    let acc := collectZipEntries rawDir rest
    if name.endsWith "/" then acc
    else if isImageName name then
      if inferLabelFromParts (name.splitOn "/") = some "cat" then
        ⟨(rawDir ++ "/" ++ name) :: acc.cat, acc.dog⟩
      else if inferLabelFromParts (name.splitOn "/") = some "dog" then
        ⟨acc.cat, (rawDir ++ "/" ++ name) :: acc.dog⟩
      else acc
    else acc

/-- `_collect_from_zip` (the zip file itself is assumed present; `entries` is
`archive.namelist()`).  Raises `FileNotFoundError` when no images are found. -/
def collectFromZip (rawDir : String) (entries : List String) :
    Except SplitError PathsByLabel :=
  let pbl := collectZipEntries rawDir entries
  if pbl.cat.isEmpty ∧ pbl.dog.isEmpty then .error .notFound else .ok pbl

/-- The `try/except FileNotFoundError` block of `write_split_manifests`:
collect from the directory, falling back to the zip (if a zip path was
supplied) when the directory collection raises. -/
def resolveCollect (rootFound : Bool) (files : List (List String))
    (zipEntries : Option (List String)) (rawDir : String) :
    Except SplitError PathsByLabel :=
  match collectFromDirectory rootFound files with
  | .ok pbl => .ok pbl
  | .error e =>
    match zipEntries with
    | none => .error e
    | some entries => collectFromZip rawDir entries

/-! ## Deterministic per-class shuffle (`_stratified_split`) -/

/-- One step of the linear congruential generator standing in for the
Mersenne Twister (64-bit state). -/
def lcgNext (st : ℕ) : ℕ := (6364136223846793005 * st + 1442695040888963407) % (2 ^ 64)

/-- Hash a seed string into an initial generator state, standing in for
`random.Random(str)`'s seeding from the string's hash. -/
def strSeed (s : String) : ℕ :=
  s.foldl (fun acc c => (acc * 31 + c.toNat) % (2 ^ 64)) 7

/-- Fisher-Yates selection loop: with `fuel` steps remaining, pick the element
at index `st % length`, emit it, and continue on the remainder with the next
generator state. -/
def shuffleGo : ℕ → ℕ → List String → List String
  | 0, _, l => l
  | fuel + 1, st, l =>
    match l.get? (st % l.length) with
    | none => l
    | some x => x :: shuffleGo fuel (lcgNext st) (l.eraseIdx (st % l.length))

/-- Model of `rng.shuffle` for `rng = random.Random(seedStr)`: a deterministic
permutation of the input depending only on `seedStr` and the input list. -/
def pyShuffle (seedStr : String) (l : List String) : List String :=
  shuffleGo l.length (strSeed seedStr) l

/-- The seed string `f"{seed}:{label}"` of `_stratified_split`. -/
def seedKey (seed : ℕ) (label : String) : String :=
  toString seed ++ ":" ++ label

/-- `sorted(paths, key=lambda p: p.as_posix())` with paths modelled by their
POSIX strings: stable lexicographic sort. -/
def sortStrs (l : List String) : List String :=
  List.mergeSort l (fun a b => decide (a ≤ b))

/-- `sorted(splits[split], key=lambda item: item[0].as_posix())`: stable sort
of (path, label) pairs by path. -/
def sortPairs (l : List (String × String)) : List (String × String) :=
  List.mergeSort l (fun a b => decide (a.1 ≤ b.1))

/-- The split ratio dict (keys `train`/`val`/`test`), float values modelled
as exact rationals. -/
structure Ratios where
  train : ℚ
  val : ℚ
  test : ℚ
deriving DecidableEq

/-- Python `int()` applied to a (rational-modelled) float: truncation toward
zero. -/
def pyInt (q : ℚ) : ℤ := if 0 ≤ q then ⌊q⌋ else ⌈q⌉

/-- `train_count = int(total * ratios["train"])` (as a natural number; the
theorems below only use it in the regime `0 ≤ ratios.train` where this agrees
with the Python `int`). -/
def trainCount (total : ℕ) (r : Ratios) : ℕ :=
  (pyInt ((total : ℚ) * r.train)).toNat

/-- `val_count = int(total * ratios["val"])`. -/
def valCount (total : ℕ) (r : Ratios) : ℕ :=
  (pyInt ((total : ℚ) * r.val)).toNat

/-- One iteration of the `for label in sorted(paths_by_label.keys())` loop of
`_stratified_split`: sort the class's paths, shuffle with the
`(seed, label)`-keyed generator, and slice into
`paths[:train_count]`, `paths[train_count : train_count + val_count]`,
`paths[train_count + val_count :]`, pairing each path with the label. -/
def splitClass (seed : ℕ) (r : Ratios) (label : String) (paths : List String) :
    List (String × String) × List (String × String) × List (String × String) :=
  let shuffled := pyShuffle (seedKey seed label) (sortStrs paths)
  let tc := trainCount shuffled.length r
  let vc := valCount shuffled.length r
  ((shuffled.take tc).map (fun p => (p, label)),
   ((shuffled.drop tc).take vc).map (fun p => (p, label)),
   (shuffled.drop (tc + vc)).map (fun p => (p, label)))

/-- The three split buckets. -/
structure Splits where
  train : List (String × String)
  val : List (String × String)
  test : List (String × String)
deriving DecidableEq

/-- `_stratified_split` from `data.py`: per-class deterministic shuffle and
slicing (processing `"cat"` then `"dog"`, the sorted key order), then a final
per-bucket re-sort by path. -/
def stratifiedSplit (seed : ℕ) (r : Ratios) (pbl : PathsByLabel) : Splits :=
  let c := splitClass seed r "cat" pbl.cat
  let d := splitClass seed r "dog" pbl.dog
  { train := sortPairs (c.1 ++ d.1)
  , val := sortPairs (c.2.1 ++ d.2.1)
  , test := sortPairs (c.2.2 ++ d.2.2) }

/-! ## Manifest rendering and `write_split_manifests` -/

/-- The manifest text written for one split:
`"\n".join(f"{path}\t{label}" for ...) + ("\n" if lines else "")`
(paths are already repo-relative in this model). -/
def manifestText (items : List (String × String)) : String :=
  let lines := items.map (fun it => it.1 ++ "\t" ++ it.2)
  String.intercalate "\n" lines ++ (if lines.isEmpty then "" else "\n")

/-- Filesystem effects of `write_split_manifests`, in program order. -/
inductive FsAction
  | mkdirSplits
  | writeFile (name : String) (content : String)
  | writeMetadata (seed : ℕ) (ratios : Ratios) (counts : ℕ × ℕ × ℕ)
deriving DecidableEq

/-- `write_split_manifests` from `data.py`, as the list of filesystem actions
it performs together with its result.  The ratio-sum guard
(`abs(sum(ratios.values()) - 1.0) > 1e-6`) runs first, then collection (which
may raise `FileNotFoundError`), then the split; only after all of these does
the function create the splits directory and write the three manifests and
the metadata file. -/
def writeSplitManifests (rootFound : Bool) (files : List (List String))
    (zipEntries : Option (List String)) (rawDir : String)
    (seed : ℕ) (r : Ratios) : List FsAction × Except SplitError Splits :=
  if |r.train + r.val + r.test - 1| > 1 / 1000000 then ([], .error .config)
  else
    match resolveCollect rootFound files zipEntries rawDir with
    | .error e => ([], .error e)
    | .ok pbl =>
      let splits := stratifiedSplit seed r pbl
      ([FsAction.mkdirSplits,
        FsAction.writeFile "train.txt" (manifestText splits.train),
        FsAction.writeFile "val.txt" (manifestText splits.val),
        FsAction.writeFile "test.txt" (manifestText splits.test),
        FsAction.writeMetadata seed r
          (splits.train.length, splits.val.length, splits.test.length)],
       .ok splits)

/-! ## Color-histogram features (`model.py`) -/

/-- A rank-3 image array of shape (H, W, 3): rows of RGB triples, pixel
values modelled as exact rationals. -/
structure Image3 where
  rows : List (List (ℚ × ℚ × ℚ))
deriving DecidableEq

/-- `image_array[:, :, channel]` flattened to the list of that channel's
pixel values (channels 0, 1, 2; any other index behaves like 2, unused). -/
def channelVals (img : Image3) (c : ℕ) : List ℚ :=
  (img.rows.flatten).map (fun px => if c = 0 then px.1 else if c = 1 then px.2.1 else px.2.2)

/-- Membership of a value in bin `k` of `np.histogram(-, bins, range=(0.0, 1.0))`:
`bins` equal-width bins over [0, 1], each half-open except the last, which is
closed on the right; values outside [0, 1] fall in no bin. -/
def inBin (bins k : ℕ) (v : ℚ) : Bool :=
  if k + 1 = bins then decide ((k : ℚ) / bins ≤ v ∧ v ≤ 1)
  else decide ((k : ℚ) / bins ≤ v ∧ v < ((k : ℚ) + 1) / bins)

/-- Proof-side helper: the unique bin index of an in-range value
(`min ⌊v * bins⌋ (bins - 1)`); used to show the bins partition `[0, 1]`. -/
def binIndexQ (bins : ℕ) (v : ℚ) : ℕ := min (⌊v * (bins : ℚ)⌋).toNat (bins - 1)

/-- The bin counts of `np.histogram(values, bins=bins, range=(0.0, 1.0))`. -/
def histCounts (values : List ℚ) (bins : ℕ) : List ℕ :=
  (List.range bins).map (fun k => values.countP (fun v => inBin bins k v))

/-- Lines 48-53 of `model.py` for one channel: take the histogram counts as
floats, and divide by their sum when it is positive (`if total > 0: hist /= total`). -/
def normHist (values : List ℚ) (bins : ℕ) : List ℚ :=
  let counts := histCounts values bins
  let total := counts.sum
  if 0 < total then counts.map (fun (c : ℕ) => (c : ℚ) / (total : ℚ))
  else counts.map (fun (c : ℕ) => (c : ℚ))

/-- `extract_color_histogram` from `model.py` (the rank-3 / 3-channel shape
guard is enforced by the `Image3` type): per-channel normalized histograms,
concatenated in channel order. -/
def extractColorHistogram (img : Image3) (bins : ℕ) : List ℚ :=
  normHist (channelVals img 0) bins ++ normHist (channelVals img 1) bins ++
    normHist (channelVals img 2) bins

/-! ## Prediction (`predict.py`) -/

/-- Error kinds of `predict_bytes`, named after the spec's taxonomy:
`emptyPayload` = the `ValueError("Empty image payload.")` guard,
`decodeError` = the decoder exception of `Image.open`. -/
inductive PredictError
  | emptyPayload
  | decodeError
deriving DecidableEq

/-- `int(np.argmax(scores))` loop core: running first-maximum index scan.
`i` is the index of the next element, `bi`/`bv` the best index and value so
far; a later element replaces the best only when strictly greater. -/
def argmaxGo : List ℚ → ℕ → ℕ → ℚ → ℕ
  | [], _, bi, _ => bi
  | v :: rest, i, bi, bv =>
    if bv < v then argmaxGo rest (i + 1) i v else argmaxGo rest (i + 1) bi bv

/-- `int(np.argmax(scores))`: index of the first occurrence of the maximum
(0 on the empty list, which never occurs in the pipeline). -/
def argmax : List ℚ → ℕ
  | [] => 0
  | v :: rest => argmaxGo rest 1 0 v

/-- `_resolve_class_labels` from `predict.py`: map the classifier's class
identifiers (`classes_`, or `range(n_classes)` when absent) through the
bundle's `index_to_class` dict with `str(cls)` as default, falling back to
stringified indices when the label count mismatches. -/
def resolveClassLabels (indexToClass : ℤ → Option String) (classes : Option (List ℤ))
    (n : ℕ) : List String :=
  let classIndices := classes.getD ((List.range n).map (fun (i : ℕ) => (i : ℤ)))
  let labels := classIndices.map (fun c => (indexToClass c).getD (toString c))
  if labels.length ≠ n then (List.range n).map (fun (i : ℕ) => toString i) else labels

/-- The parts of a `ModelBundle` that `predict_image` consults.  The
classifier's probability row for a feature vector (`_predict_proba(...)[0]`)
is an oracle function: the claims quantify over "the probability vector
produced by the classifier". -/
structure BundleM where
  proba : List ℚ → List ℚ
  classes : Option (List ℤ)
  indexToClass : ℤ → Option String
  bins : ℕ

/-- `predict_image` from `predict.py` with preprocessing (external PIL
decode/resize work) supplied as an oracle: featurize via
`extract_color_histogram`, get the probability row, resolve labels, and
return `(labels[best_idx], scores[best_idx], zip(labels, scores))` with
`best_idx = int(np.argmax(scores))`.  (The Python result also carries the
label→probability dict, modelled by the zip list.) -/
def predictImageM (preprocessO : Image3 → Image3) (b : BundleM) (img : Image3) :
    String × ℚ × List (String × ℚ) :=
  let features := extractColorHistogram (preprocessO img) b.bins
  let scores := b.proba features
  let labels := resolveClassLabels b.indexToClass b.classes scores.length
  let bestIdx := argmax scores
  (labels.getD bestIdx "", scores.getD bestIdx 0, labels.zip scores)

/-- `predict_bytes` from `predict.py`: reject empty payloads, then decode
(`Image.open`, modelled by the `decodeO` oracle returning `none` on
undecodable bytes), then run `predict_image`. -/
def predictBytesM (decodeO : List ℕ → Option Image3) (preprocessO : Image3 → Image3)
    (b : BundleM) (payload : List ℕ) :
    Except PredictError (String × ℚ × List (String × ℚ)) :=
  if payload.isEmpty then .error .emptyPayload
  else
    match decodeO payload with
    | none => .error .decodeError
    | some img => .ok (predictImageM preprocessO b img)

/-! ## Feature-matrix construction (`train.py` `_build_features`,
`evaluate.py` `_load_features_from_manifest`) -/

/-- Manifest labels (manifests written by the splitter contain only
`cat`/`dog`); `CLASS_TO_INDEX` maps them to 0/1. -/
inductive Label
  | cat
  | dog
deriving DecidableEq

/-- `CLASS_TO_INDEX` from `data.py`. -/
def classToIndex : Label → ℕ
  | .cat => 0
  | .dog => 1

/-- The `for idx, (path, label) in enumerate(items)` loop of
`_build_features` (`train.py`).  `loadImage` is the oracle for
`Image.open(path)` + `convert("RGB")` + `preprocess_image` (the operations
that can raise for a bad file; `none` = the sample raises and is skipped).
`augmentFn s` is the oracle for `_augment_image` with `random.Random(s)`,
invoked with the deterministic seed `seed + idx*1000 + aug_idx`.
Returns (features, labels, skipped). -/
def buildFeaturesGo (loadImage : String → Option Image3) (augmentFn : ℕ → Image3 → Image3)
    (bins : ℕ) (augment : Bool) (augPerImage : ℕ) (seed : ℕ) :
    ℕ → List (String × Label) → List (List ℚ) × List ℕ × ℕ
  | _, [] => ([], [], 0)
  | idx, (path, label) :: rest =>
    let acc := buildFeaturesGo loadImage augmentFn bins augment augPerImage seed (idx + 1) rest
    match loadImage path with
    | none => (acc.1, acc.2.1, acc.2.2 + 1)
    | some img =>
      let augFeats :=
        if augment then
          (List.range augPerImage).map
            (fun augIdx => extractColorHistogram (augmentFn (seed + idx * 1000 + augIdx) img) bins)
        else []
      (extractColorHistogram img bins :: (augFeats ++ acc.1),
       classToIndex label :: (augFeats.map (fun _ => classToIndex label) ++ acc.2.1),
       acc.2.2)

/-- `_build_features` from `train.py`: run the loop from index 0, then raise
`ValueError("No valid samples available after preprocessing.")` when no
features were produced. -/
def buildFeatures (loadImage : String → Option Image3) (augmentFn : ℕ → Image3 → Image3)
    (bins : ℕ) (augment : Bool) (augPerImage : ℕ) (seed : ℕ)
    (items : List (String × Label)) : Except Unit (List (List ℚ) × List ℕ × ℕ) :=
  let acc := buildFeaturesGo loadImage augmentFn bins augment augPerImage seed 0 items
  if acc.1.isEmpty then .error () else .ok acc

/-- The `for path, label in items` loop of `_load_features_from_manifest`
(`evaluate.py`): `preprocess_path` failures (decode/preprocess, modelled by
the `loadImage` oracle) increment `skipped` and `continue`; successes are
featurized and labeled. -/
def loadFeaturesGo (loadImage : String → Option Image3) (bins : ℕ) :
    List (String × Label) → List (List ℚ) × List ℕ × ℕ
  | [] => ([], [], 0)
  | (path, label) :: rest =>
    let acc := loadFeaturesGo loadImage bins rest
    match loadImage path with
    | none => (acc.1, acc.2.1, acc.2.2 + 1)
    | some img => (extractColorHistogram img bins :: acc.1, classToIndex label :: acc.2.1, acc.2.2)

/-- `_load_features_from_manifest` from `evaluate.py`, with its
`ValueError("No valid samples found while building features.")` guard. -/
def loadFeaturesFromManifest (loadImage : String → Option Image3) (bins : ℕ)
    (items : List (String × Label)) : Except Unit (List (List ℚ) × List ℕ × ℕ) :=
  let acc := loadFeaturesGo loadImage bins items
  if acc.1.isEmpty then .error () else .ok acc

/-! ## Helper lemmas: shuffling is a permutation, sorting is canonical -/

theorem perm_cons_eraseIdx_of_get? {α : Type} :
    ∀ (l : List α) (i : ℕ) (x : α), l.get? i = some x → l.Perm (x :: l.eraseIdx i) := by
  intro l
  induction l with
  | nil => intro i x h; simp at h
  | cons y t ih =>
    intro i x h
    cases i with
    | zero =>
      simp at h
      subst h
      simp [List.eraseIdx]
    | succ j =>
      simp only [List.get?] at h
      have hperm := ih j x h
      have herase : (y :: t).eraseIdx (j + 1) = y :: t.eraseIdx j := rfl
      rw [herase]
      exact (hperm.cons y).trans (List.Perm.swap x y _)

theorem shuffleGo_perm : ∀ (fuel st : ℕ) (l : List String), (shuffleGo fuel st l).Perm l := by
  intro fuel
  induction fuel with
  | zero => intro st l; simp [shuffleGo]
  | succ n ih =>
    intro st l
    rw [shuffleGo]
    cases h : l.get? (st % l.length) with
    | none => exact List.Perm.refl l
    | some x =>
      have h1 := (ih (lcgNext st) (l.eraseIdx (st % l.length))).cons x
      exact h1.trans (perm_cons_eraseIdx_of_get? l _ x h).symm

theorem pyShuffle_perm (s : String) (l : List String) : (pyShuffle s l).Perm l :=
  shuffleGo_perm l.length (strSeed s) l

theorem sortStrs_perm (l : List String) : (sortStrs l).Perm l :=
  List.mergeSort_perm l _

theorem sortPairs_perm (l : List (String × String)) : (sortPairs l).Perm l :=
  List.mergeSort_perm l _

theorem sortStrs_sorted (l : List String) : List.Sorted (· ≤ ·) (sortStrs l) := by
  have h := @List.sorted_mergeSort String (fun a b : String => decide (a ≤ b))
    (by intro a b c h1 h2; simp only [decide_eq_true_eq] at *; exact le_trans h1 h2)
    (by intro a b; simp only [Bool.or_eq_true, decide_eq_true_eq]; exact le_total a b) l
  exact h.imp (by intro a b hab; simpa using hab)

theorem sortStrs_eq_of_perm {l₁ l₂ : List String} (h : l₁.Perm l₂) :
    sortStrs l₁ = sortStrs l₂ := by
  refine List.eq_of_perm_of_sorted ?_ (sortStrs_sorted l₁) (sortStrs_sorted l₂)
  exact (sortStrs_perm l₁).trans (h.trans (sortStrs_perm l₂).symm)

theorem splitClass_congr (seed : ℕ) (r : Ratios) (label : String) {p₁ p₂ : List String}
    (h : p₁.Perm p₂) : splitClass seed r label p₁ = splitClass seed r label p₂ := by
  unfold splitClass
  rw [sortStrs_eq_of_perm h]

theorem stratifiedSplit_congr (seed : ℕ) (r : Ratios) {pbl₁ pbl₂ : PathsByLabel}
    (hcat : pbl₁.cat.Perm pbl₂.cat) (hdog : pbl₁.dog.Perm pbl₂.dog) :
    stratifiedSplit seed r pbl₁ = stratifiedSplit seed r pbl₂ := by
  unfold stratifiedSplit
  rw [splitClass_congr seed r "cat" hcat, splitClass_congr seed r "dog" hdog]

/-! ## Helper lemmas: the collection loop as a filter -/

theorem collectFiles_cat (files : List (List String)) :
    (collectFiles files).cat =
      (files.filter (fun ps =>
        isImageName (lastPart ps) && decide (inferLabelFromParts ps = some "cat"))).map
        joinPath := by
  induction files with
  | nil => rfl
  | cons ps rest ih =>
    rw [collectFiles]
    by_cases h1 : isImageName (lastPart ps)
    · by_cases h2 : inferLabelFromParts ps = some "cat"
      · simp [h1, h2, List.filter_cons, ih]
      · by_cases h3 : inferLabelFromParts ps = some "dog"
        · simp [h1, h2, h3, List.filter_cons, ih]
        · simp [h1, h2, h3, List.filter_cons, ih]
    · simp [h1, List.filter_cons, ih]

theorem collectFiles_dog (files : List (List String)) :
    (collectFiles files).dog =
      (files.filter (fun ps =>
        isImageName (lastPart ps) && decide (inferLabelFromParts ps = some "dog"))).map
        joinPath := by
  induction files with
  | nil => rfl
  | cons ps rest ih =>
    rw [collectFiles]
    by_cases h1 : isImageName (lastPart ps)
    · by_cases h2 : inferLabelFromParts ps = some "cat"
      · have h3 : ¬ inferLabelFromParts ps = some "dog" := by simp [h2]
        simp [h1, h2, h3, List.filter_cons, ih]
      · by_cases h3 : inferLabelFromParts ps = some "dog"
        · simp [h1, h2, h3, List.filter_cons, ih]
        · simp [h1, h2, h3, List.filter_cons, ih]
    · simp [h1, List.filter_cons, ih]

theorem collectFiles_perm {files₁ files₂ : List (List String)} (h : files₁.Perm files₂) :
    (collectFiles files₁).cat.Perm (collectFiles files₂).cat ∧
      (collectFiles files₁).dog.Perm (collectFiles files₂).dog := by
  constructor
  · rw [collectFiles_cat, collectFiles_cat]
    exact (h.filter _).map joinPath
  · rw [collectFiles_dog, collectFiles_dog]
    exact (h.filter _).map joinPath

/-! ## Helper lemmas: floor arithmetic for the split counts -/

theorem floor_add_floor_le (a b : ℚ) : ⌊a⌋ + ⌊b⌋ ≤ ⌊a + b⌋ := by
  refine Int.le_floor.mpr ?_
  push_cast
  exact add_le_add (Int.floor_le a) (Int.floor_le b)

theorem trainCount_cast (total : ℕ) (r : Ratios) (h : 0 ≤ r.train) :
    (trainCount total r : ℤ) = ⌊(total : ℚ) * r.train⌋ := by
  have hq : (0 : ℚ) ≤ (total : ℚ) * r.train := mul_nonneg (by positivity) h
  unfold trainCount pyInt
  rw [if_pos hq, Int.toNat_of_nonneg (Int.floor_nonneg.mpr hq)]

theorem valCount_cast (total : ℕ) (r : Ratios) (h : 0 ≤ r.val) :
    (valCount total r : ℤ) = ⌊(total : ℚ) * r.val⌋ := by
  have hq : (0 : ℚ) ≤ (total : ℚ) * r.val := mul_nonneg (by positivity) h
  unfold valCount pyInt
  rw [if_pos hq, Int.toNat_of_nonneg (Int.floor_nonneg.mpr hq)]

theorem counts_le_total (total : ℕ) (r : Ratios) (ht : 0 ≤ r.train) (hv : 0 ≤ r.val)
    (hsum : r.train + r.val ≤ 1) : trainCount total r + valCount total r ≤ total := by
  have hstep : (trainCount total r : ℤ) + (valCount total r : ℤ) ≤ total := by
    rw [trainCount_cast total r ht, valCount_cast total r hv]
    refine le_trans (floor_add_floor_le _ _) ?_
    have hle : (total : ℚ) * r.train + (total : ℚ) * r.val ≤ (total : ℚ) := by
      rw [← mul_add]
      exact mul_le_of_le_one_right (by positivity) hsum
    have := Int.floor_le_floor hle
    rwa [Int.floor_natCast] at this
  exact_mod_cast hstep

/-! ## Helper lemmas: slicing partitions the shuffled list -/

theorem take_drop_partition {α : Type} (l : List α) (a b : ℕ) :
    l.take a ++ ((l.drop a).take b ++ l.drop (a + b)) = l := by
  have h1 : l.drop (a + b) = (l.drop a).drop b := (List.drop_drop b a l).symm
  rw [h1, List.take_append_drop, List.take_append_drop]

theorem splitClass_append_perm (seed : ℕ) (r : Ratios) (label : String) (paths : List String) :
    ((splitClass seed r label paths).1 ++ ((splitClass seed r label paths).2.1 ++
      (splitClass seed r label paths).2.2)).Perm (paths.map (fun p => (p, label))) := by
  unfold splitClass
  simp only [← List.map_append]
  rw [take_drop_partition]
  exact ((pyShuffle_perm _ _).trans (sortStrs_perm paths)).map _

theorem collectFromDirectory_cases {files₁ files₂ : List (List String)}
    (h : files₁.Perm files₂) (rootFound : Bool) :
    (collectFromDirectory rootFound files₁ = .error .notFound ∧
      collectFromDirectory rootFound files₂ = .error .notFound) ∨
    (∃ q₁ q₂, collectFromDirectory rootFound files₁ = .ok q₁ ∧
      collectFromDirectory rootFound files₂ = .ok q₂ ∧
      q₁.cat.Perm q₂.cat ∧ q₁.dog.Perm q₂.dog) := by
  cases rootFound with
  | false => exact Or.inl ⟨rfl, rfl⟩
  | true =>
    obtain ⟨hc, hd⟩ := collectFiles_perm h
    by_cases he : (collectFiles files₁).cat.isEmpty ∧ (collectFiles files₁).dog.isEmpty
    · have hc2 : (collectFiles files₂).cat = [] := by
        have h1 : (collectFiles files₁).cat = [] := by simpa [List.isEmpty_iff] using he.1
        rw [h1] at hc
        exact hc.symm.eq_nil
      have hd2 : (collectFiles files₂).dog = [] := by
        have h1 : (collectFiles files₁).dog = [] := by simpa [List.isEmpty_iff] using he.2
        rw [h1] at hd
        exact hd.symm.eq_nil
      left
      constructor
      · simp [collectFromDirectory, he]
      · simp [collectFromDirectory, hc2, hd2]
    · have he2 : ¬ ((collectFiles files₂).cat.isEmpty ∧ (collectFiles files₂).dog.isEmpty) := by
        intro h2
        apply he
        have hc1 : (collectFiles files₁).cat = [] := by
          have : (collectFiles files₂).cat = [] := by simpa [List.isEmpty_iff] using h2.1
          rw [this] at hc
          exact hc.eq_nil
        have hd1 : (collectFiles files₁).dog = [] := by
          have : (collectFiles files₂).dog = [] := by simpa [List.isEmpty_iff] using h2.2
          rw [this] at hd
          exact hd.eq_nil
        simp [List.isEmpty_iff, hc1, hd1]
      right
      refine ⟨collectFiles files₁, collectFiles files₂, ?_, ?_, hc, hd⟩
      · unfold collectFromDirectory
        rw [if_pos rfl, if_neg he]
      · unfold collectFromDirectory
        rw [if_pos rfl, if_neg he2]

theorem resolveCollect_cases {files₁ files₂ : List (List String)} (h : files₁.Perm files₂)
    (rootFound : Bool) (zipEntries : Option (List String)) (rawDir : String) :
    (∃ e, resolveCollect rootFound files₁ zipEntries rawDir = .error e ∧
      resolveCollect rootFound files₂ zipEntries rawDir = .error e) ∨
    (∃ q₁ q₂, resolveCollect rootFound files₁ zipEntries rawDir = .ok q₁ ∧
      resolveCollect rootFound files₂ zipEntries rawDir = .ok q₂ ∧
      q₁.cat.Perm q₂.cat ∧ q₁.dog.Perm q₂.dog) := by
  rcases collectFromDirectory_cases h rootFound with ⟨h1, h2⟩ | ⟨q₁, q₂, h1, h2, hc, hd⟩
  · cases zipEntries with
    | none => exact Or.inl ⟨.notFound, by simp [resolveCollect, h1], by simp [resolveCollect, h2]⟩
    | some entries =>
      cases hz : collectFromZip rawDir entries with
      | error e =>
        exact Or.inl ⟨e, by simp [resolveCollect, h1, hz], by simp [resolveCollect, h2, hz]⟩
      | ok q =>
        exact Or.inr ⟨q, q, by simp [resolveCollect, h1, hz], by simp [resolveCollect, h2, hz],
          List.Perm.refl _, List.Perm.refl _⟩
  · exact Or.inr ⟨q₁, q₂, by simp [resolveCollect, h1], by simp [resolveCollect, h2], hc, hd⟩

/-- **C1.** Dataset-split determinism: the split is a pure function of the
seed, the ratios and the *set* of collected files — each class's list is
sorted before the `(seed, label)`-seeded shuffle, so permuting the input
lists (e.g. a different filesystem enumeration order) changes neither the
split assignment nor a single byte of the manifest/metadata output, and
running twice on identical inputs is trivially identical. -/
theorem C1_split_determinism (seed : ℕ) (r : Ratios) (pbl₁ pbl₂ : PathsByLabel)
    (rootFound : Bool) (zipEntries : Option (List String)) (rawDir : String)
    (files₁ files₂ : List (List String))
    (hcat : pbl₁.cat.Perm pbl₂.cat) (hdog : pbl₁.dog.Perm pbl₂.dog)
    (hfiles : files₁.Perm files₂) :
    stratifiedSplit seed r pbl₁ = stratifiedSplit seed r pbl₂ ∧
    writeSplitManifests rootFound files₁ zipEntries rawDir seed r =
      writeSplitManifests rootFound files₂ zipEntries rawDir seed r := by
  refine ⟨stratifiedSplit_congr seed r hcat hdog, ?_⟩
  unfold writeSplitManifests
  by_cases hr : |r.train + r.val + r.test - 1| > 1 / 1000000
  · rw [if_pos hr, if_pos hr]
  · rw [if_neg hr, if_neg hr]
    rcases resolveCollect_cases hfiles rootFound zipEntries rawDir with
      ⟨e, h1, h2⟩ | ⟨q₁, q₂, h1, h2, hc, hd⟩
    · rw [h1, h2]
    · rw [h1, h2]
      simp only [stratifiedSplit_congr seed r hc hd]

/-- Closed witness for C1: swapping the enumeration order of two files and
of two per-class paths leaves the split and the write actions unchanged. -/
theorem C1_split_determinism_witness :
    stratifiedSplit 1337 ⟨4/5, 1/10, 1/10⟩ ⟨["b", "a"], ["d"]⟩ =
      stratifiedSplit 1337 ⟨4/5, 1/10, 1/10⟩ ⟨["a", "b"], ["d"]⟩ ∧
    writeSplitManifests true [["cats", "y.jpg"], ["dogs", "x.jpg"]] none "data/raw" 1337
        ⟨4/5, 1/10, 1/10⟩ =
      writeSplitManifests true [["dogs", "x.jpg"], ["cats", "y.jpg"]] none "data/raw" 1337
        ⟨4/5, 1/10, 1/10⟩ :=
  C1_split_determinism 1337 ⟨4/5, 1/10, 1/10⟩ ⟨["b", "a"], ["d"]⟩ ⟨["a", "b"], ["d"]⟩
    true none "data/raw" [["cats", "y.jpg"], ["dogs", "x.jpg"]]
    [["dogs", "x.jpg"], ["cats", "y.jpg"]]
    (List.Perm.swap "a" "b" []) (List.Perm.refl _)
    (List.Perm.swap ["dogs", "x.jpg"] ["cats", "y.jpg"] [])

/-- **C2.** Split partition counts: for every class list, the splitter puts
exactly `⌊total * train_ratio⌋` files in train, `⌊total * val_ratio⌋` in
val, and the remaining `total - train_count - val_count` in test, summing
to the class's total (ratios are a valid ratio dict: nonnegative with
`train + val ≤ 1`). -/
theorem C2_split_partition_counts (seed : ℕ) (r : Ratios) (label : String)
    (paths : List String) (ht : 0 ≤ r.train) (hv : 0 ≤ r.val)
    (hsum : r.train + r.val ≤ 1) :
    (splitClass seed r label paths).1.length = trainCount paths.length r ∧
    (splitClass seed r label paths).2.1.length = valCount paths.length r ∧
    (splitClass seed r label paths).2.2.length =
      paths.length - trainCount paths.length r - valCount paths.length r ∧
    (splitClass seed r label paths).1.length + (splitClass seed r label paths).2.1.length +
      (splitClass seed r label paths).2.2.length = paths.length ∧
    (trainCount paths.length r : ℤ) = ⌊(paths.length : ℚ) * r.train⌋ ∧
    (valCount paths.length r : ℤ) = ⌊(paths.length : ℚ) * r.val⌋ := by
  have hlen : (pyShuffle (seedKey seed label) (sortStrs paths)).length = paths.length :=
    ((pyShuffle_perm _ _).trans (sortStrs_perm paths)).length_eq
  have hab := counts_le_total paths.length r ht hv hsum
  have ha : trainCount paths.length r ≤ paths.length :=
    le_trans (Nat.le_add_right _ _) hab
  have hb : valCount paths.length r ≤ paths.length - trainCount paths.length r :=
    Nat.le_sub_of_add_le (by omega)
  unfold splitClass
  simp only [List.length_map, List.length_take, List.length_drop, hlen]
  refine ⟨Nat.min_eq_left ha, ?_, ?_, ?_, trainCount_cast paths.length r ht,
    valCount_cast paths.length r hv⟩
  · omega
  · omega
  · omega

/-- Closed witness for C2: four files with ratios (1/2, 1/4, 1/4) split as
2 train / 1 val / 1 test. -/
theorem C2_split_partition_counts_witness :
    (splitClass 1337 ⟨1/2, 1/4, 1/4⟩ "cat" ["a", "b", "c", "d"]).1.length = 2 ∧
    (splitClass 1337 ⟨1/2, 1/4, 1/4⟩ "cat" ["a", "b", "c", "d"]).2.1.length = 1 ∧
    (splitClass 1337 ⟨1/2, 1/4, 1/4⟩ "cat" ["a", "b", "c", "d"]).2.2.length = 1 := by
  have h := C2_split_partition_counts 1337 ⟨1/2, 1/4, 1/4⟩ "cat" ["a", "b", "c", "d"]
    (by norm_num) (by norm_num) (by norm_num)
  have hn : (["a", "b", "c", "d"] : List String).length = 4 := rfl
  rw [hn] at h
  have htc : trainCount 4 ⟨1/2, 1/4, 1/4⟩ = 2 := by
    have h1 := h.2.2.2.2.1
    norm_num at h1
    exact_mod_cast h1
  have hvc : valCount 4 ⟨1/2, 1/4, 1/4⟩ = 1 := by
    have h1 := h.2.2.2.2.2
    norm_num at h1
    exact_mod_cast h1
  refine ⟨?_, ?_, ?_⟩
  · rw [h.1]; exact htc
  · rw [h.2.1]; exact hvc
  · rw [h.2.2.1, htc, hvc]

/-- **C9.** Implicit split-partition invariant: train, val and test together
are a permutation of the collected (path, label) pairs — nothing invented,
nothing lost, labels preserved — and when the per-class path lists are
duplicate-free the concatenation is duplicate-free, i.e. the three splits
are pairwise disjoint and every pair appears exactly once. -/
theorem C9_split_partition_invariant (seed : ℕ) (r : Ratios) (pbl : PathsByLabel)
    (_ht : 0 ≤ r.train) (_hv : 0 ≤ r.val) :
    ((stratifiedSplit seed r pbl).train ++ (stratifiedSplit seed r pbl).val ++
        (stratifiedSplit seed r pbl).test).Perm
      (pbl.cat.map (fun p => (p, "cat")) ++ pbl.dog.map (fun p => (p, "dog"))) ∧
    (pbl.cat.Nodup → pbl.dog.Nodup →
      ((stratifiedSplit seed r pbl).train ++ (stratifiedSplit seed r pbl).val ++
        (stratifiedSplit seed r pbl).test).Nodup) := by
  have hc := splitClass_append_perm seed r "cat" pbl.cat
  have hd := splitClass_append_perm seed r "dog" pbl.dog
  have hmain : ((stratifiedSplit seed r pbl).train ++ (stratifiedSplit seed r pbl).val ++
      (stratifiedSplit seed r pbl).test).Perm
      (pbl.cat.map (fun p => (p, "cat")) ++ pbl.dog.map (fun p => (p, "dog"))) := by
    have hs : ((stratifiedSplit seed r pbl).train ++ (stratifiedSplit seed r pbl).val ++
        (stratifiedSplit seed r pbl).test).Perm
        (((splitClass seed r "cat" pbl.cat).1 ++ (splitClass seed r "dog" pbl.dog).1) ++
          ((splitClass seed r "cat" pbl.cat).2.1 ++ (splitClass seed r "dog" pbl.dog).2.1) ++
          ((splitClass seed r "cat" pbl.cat).2.2 ++ (splitClass seed r "dog" pbl.dog).2.2)) := by
      exact ((sortPairs_perm _).append (sortPairs_perm _)).append (sortPairs_perm _)
    refine hs.trans ?_
    rw [List.perm_iff_count]
    intro a
    have h1 := hc.count_eq a
    have h2 := hd.count_eq a
    simp only [List.count_append] at h1 h2 ⊢
    omega
  refine ⟨hmain, fun hnc hnd => ?_⟩
  rw [hmain.nodup_iff]
  refine List.Nodup.append ?_ ?_ ?_
  · exact hnc.map (fun a b hab => by simpa using hab)
  · exact hnd.map (fun a b hab => by simpa using hab)
  · intro x hx hy
    have h1 : x.2 = "cat" := by
      rcases List.mem_map.mp hx with ⟨p, _, rfl⟩
      rfl
    have h2 : x.2 = "dog" := by
      rcases List.mem_map.mp hy with ⟨p, _, rfl⟩
      rfl
    rw [h1] at h2
    exact absurd h2 (by decide)

/-- Closed witness for C9 at a concrete input. -/
theorem C9_split_partition_invariant_witness :
    ((stratifiedSplit 7 ⟨1/2, 1/4, 1/4⟩ ⟨["a", "b"], ["c"]⟩).train ++
        (stratifiedSplit 7 ⟨1/2, 1/4, 1/4⟩ ⟨["a", "b"], ["c"]⟩).val ++
        (stratifiedSplit 7 ⟨1/2, 1/4, 1/4⟩ ⟨["a", "b"], ["c"]⟩).test).Perm
      [("a", "cat"), ("b", "cat"), ("c", "dog")] ∧
    ((stratifiedSplit 7 ⟨1/2, 1/4, 1/4⟩ ⟨["a", "b"], ["c"]⟩).train ++
        (stratifiedSplit 7 ⟨1/2, 1/4, 1/4⟩ ⟨["a", "b"], ["c"]⟩).val ++
        (stratifiedSplit 7 ⟨1/2, 1/4, 1/4⟩ ⟨["a", "b"], ["c"]⟩).test).Nodup := by
  have h := C9_split_partition_invariant 7 ⟨1/2, 1/4, 1/4⟩ ⟨["a", "b"], ["c"]⟩
    (by norm_num) (by norm_num)
  exact ⟨h.1, h.2 (by decide) (by decide)⟩

/-! ## Error classification of the collection phase -/

theorem collectFromDirectory_error_eq {rootFound : Bool} {files : List (List String)}
    {e : SplitError} (h : collectFromDirectory rootFound files = .error e) :
    e = .notFound := by
  unfold collectFromDirectory at h
  cases rootFound with
  | false => exact (Except.error.inj h).symm
  | true =>
    rw [if_pos rfl] at h
    by_cases hc : (collectFiles files).cat.isEmpty ∧ (collectFiles files).dog.isEmpty
    · rw [if_pos hc] at h
      exact (Except.error.inj h).symm
    · rw [if_neg hc] at h
      exact absurd h (by simp)

theorem collectFromZip_error_eq {rawDir : String} {entries : List String} {e : SplitError}
    (h : collectFromZip rawDir entries = .error e) : e = .notFound := by
  unfold collectFromZip at h
  by_cases hc : (collectZipEntries rawDir entries).cat.isEmpty ∧
      (collectZipEntries rawDir entries).dog.isEmpty
  · rw [if_pos hc] at h
    exact (Except.error.inj h).symm
  · rw [if_neg hc] at h
    exact absurd h (by simp)

theorem resolveCollect_error_eq {rootFound : Bool} {files : List (List String)}
    {zipEntries : Option (List String)} {rawDir : String} {e : SplitError}
    (h : resolveCollect rootFound files zipEntries rawDir = .error e) : e = .notFound := by
  unfold resolveCollect at h
  cases hdir : collectFromDirectory rootFound files with
  | ok pbl => rw [hdir] at h; exact absurd h (by simp)
  | error e' =>
    rw [hdir] at h
    cases zipEntries with
    | none =>
      have he' := collectFromDirectory_error_eq hdir
      simp only at h
      rw [← Except.error.inj h, he']
    | some entries =>
      simp only at h
      exact collectFromZip_error_eq h

/-- Case shape of `write_split_manifests`: it either fails before performing
any filesystem action, or succeeds having performed exactly the mkdir, the
three manifest writes and the metadata write. -/
theorem writeSplitManifests_shape (rootFound : Bool) (files : List (List String))
    (zipEntries : Option (List String)) (rawDir : String) (seed : ℕ) (r : Ratios) :
    (∃ e, writeSplitManifests rootFound files zipEntries rawDir seed r = ([], .error e)) ∨
    (∃ s, writeSplitManifests rootFound files zipEntries rawDir seed r =
      ([FsAction.mkdirSplits,
        FsAction.writeFile "train.txt" (manifestText s.train),
        FsAction.writeFile "val.txt" (manifestText s.val),
        FsAction.writeFile "test.txt" (manifestText s.test),
        FsAction.writeMetadata seed r (s.train.length, s.val.length, s.test.length)],
       .ok s)) := by
  unfold writeSplitManifests
  by_cases hr : |r.train + r.val + r.test - 1| > 1 / 1000000
  · rw [if_pos hr]
    exact Or.inl ⟨.config, rfl⟩
  · rw [if_neg hr]
    cases hres : resolveCollect rootFound files zipEntries rawDir with
    | error e => exact Or.inl ⟨e, rfl⟩
    | ok pbl => exact Or.inr ⟨stratifiedSplit seed r pbl, rfl⟩

/-- **C5.** Ratio validation: when the ratio values sum to more than `1e-6`
away from 1, `write_split_manifests` raises the `ConfigError` (`ValueError`)
and performs no filesystem writes; when the sum is within the tolerance the
ratio check passes and a `ConfigError` is never raised. -/
theorem C5_ratio_validation (rootFound : Bool) (files : List (List String))
    (zipEntries : Option (List String)) (rawDir : String) (seed : ℕ) (r : Ratios) :
    (|r.train + r.val + r.test - 1| > 1 / 1000000 →
      writeSplitManifests rootFound files zipEntries rawDir seed r = ([], .error .config)) ∧
    (|r.train + r.val + r.test - 1| ≤ 1 / 1000000 →
      (writeSplitManifests rootFound files zipEntries rawDir seed r).2 ≠ .error .config) := by
  constructor
  · intro h
    unfold writeSplitManifests
    rw [if_pos h]
  · intro h
    unfold writeSplitManifests
    rw [if_neg (not_lt.mpr h)]
    cases hres : resolveCollect rootFound files zipEntries rawDir with
    | error e =>
      have he := resolveCollect_error_eq hres
      subst he
      simp
    | ok pbl => simp

/-- Closed witness for C5: ratios summing to 0.85 are rejected with the
config error and nothing is written; the default ratios (sum exactly 1)
pass the check. -/
theorem C5_ratio_validation_witness :
    writeSplitManifests true [["cats", "a.jpg"]] none "data/raw" 0 ⟨1/2, 1/4, 1/10⟩ =
      ([], .error .config) ∧
    (writeSplitManifests true [["cats", "a.jpg"]] none "data/raw" 0 ⟨4/5, 1/10, 1/10⟩).2 ≠
      .error .config := by
  constructor
  · refine (C5_ratio_validation true [["cats", "a.jpg"]] none "data/raw" 0 ⟨1/2, 1/4, 1/10⟩).1 ?_
    have h2 : ((1 : ℚ)/2 + 1/4 + 1/10 - 1) = -(3/20) := by norm_num
    show |(1 : ℚ)/2 + 1/4 + 1/10 - 1| > 1 / 1000000
    rw [h2, abs_neg, abs_of_nonneg (by norm_num)]
    norm_num
  · refine (C5_ratio_validation true [["cats", "a.jpg"]] none "data/raw" 0 ⟨4/5, 1/10, 1/10⟩).2 ?_
    have h2 : ((4 : ℚ)/5 + 1/10 + 1/10 - 1) = 0 := by norm_num
    show |(4 : ℚ)/5 + 1/10 + 1/10 - 1| ≤ 1 / 1000000
    rw [h2, abs_zero]
    norm_num

/-- **C10.** Implicit error atomicity of manifest generation: whenever
`write_split_manifests` raises (bad ratio sum, missing dataset root, or zero
images discovered), the error occurs before the splits directory is created
or any manifest/metadata file is written — the emitted filesystem-action
trace is empty. -/
theorem C10_error_atomicity (rootFound : Bool) (files : List (List String))
    (zipEntries : Option (List String)) (rawDir : String) (seed : ℕ) (r : Ratios)
    (e : SplitError)
    (h : (writeSplitManifests rootFound files zipEntries rawDir seed r).2 = .error e) :
    (writeSplitManifests rootFound files zipEntries rawDir seed r).1 = [] := by
  rcases writeSplitManifests_shape rootFound files zipEntries rawDir seed r with
    ⟨e', heq⟩ | ⟨s, heq⟩
  · rw [heq]
  · rw [heq] at h
    exact absurd h (by simp)

/-- Closed witness for C10: a ratio dict summing to 3 fails validation and
the action trace is empty. -/
theorem C10_error_atomicity_witness :
    (writeSplitManifests true [] none "data/raw" 0 ⟨1, 1, 1⟩).1 = [] ∧
    (writeSplitManifests true [] none "data/raw" 0 ⟨1, 1, 1⟩).2 = .error .config := by
  have hcond : |(1 : ℚ) + 1 + 1 - 1| > 1 / 1000000 := by
    have h2 : ((1 : ℚ) + 1 + 1 - 1) = 2 := by norm_num
    rw [h2, abs_of_nonneg (by norm_num)]
    norm_num
  have h : (writeSplitManifests true [] none "data/raw" 0 ⟨1, 1, 1⟩).2 = .error .config := by
    unfold writeSplitManifests
    rw [if_pos hcond]
  exact ⟨C10_error_atomicity true [] none "data/raw" 0 ⟨1, 1, 1⟩ .config h, h⟩

/-! ## Label inference (claim C4) -/

theorem inferLabelAux_eq_find (l : List String) :
    inferLabelAux l = (l.find? (fun s => (classSegLabel s).isSome)).bind classSegLabel := by
  induction l with
  | nil => rfl
  | cons p t ih =>
    by_cases h1 : p.toLower = "cat" ∨ p.toLower = "cats"
    · have hseg : classSegLabel p = some "cat" := by
        unfold classSegLabel
        rw [if_pos h1]
      rw [List.find?_cons_of_pos _ (by simp [hseg])]
      unfold inferLabelAux
      rw [if_pos h1]
      simp [hseg]
    · by_cases h2 : p.toLower = "dog" ∨ p.toLower = "dogs"
      · have hseg : classSegLabel p = some "dog" := by
          unfold classSegLabel
          rw [if_neg h1, if_pos h2]
        rw [List.find?_cons_of_pos _ (by simp [hseg])]
        unfold inferLabelAux
        rw [if_neg h1, if_pos h2]
        simp [hseg]
      · have hseg : classSegLabel p = none := by
          unfold classSegLabel
          rw [if_neg h1, if_neg h2]
        rw [List.find?_cons_of_neg _ (by simp [hseg])]
        unfold inferLabelAux
        rw [if_neg h1, if_neg h2]
        exact ih

/-- **C4.** Label inference rule: the inferred label is the one of the last
matching path segment (the first match when scanning the segments in reverse,
lowercased and compared with cat/cats and dog/dogs), and the directory
collection keeps exactly the image files with a matching segment — a file
whose path has no matching segment lands in neither class list, i.e. is
silently excluded. -/
theorem C4_label_inference_rule (parts : List String) (files : List (List String)) :
    inferLabelFromParts parts = specLastMatchingLabel parts ∧
    (collectFiles files).cat =
      (files.filter (fun ps =>
        isImageName (lastPart ps) && decide (inferLabelFromParts ps = some "cat"))).map
        joinPath ∧
    (collectFiles files).dog =
      (files.filter (fun ps =>
        isImageName (lastPart ps) && decide (inferLabelFromParts ps = some "dog"))).map
        joinPath :=
  ⟨inferLabelAux_eq_find parts.reverse, collectFiles_cat files, collectFiles_dog files⟩

/-! ## Histogram lemmas (claim C3): the bins partition [0, 1] -/

theorem inBin_iff (bins k : ℕ) (v : ℚ) (hB : 0 < bins) (hk : k < bins)
    (h0 : 0 ≤ v) (h1 : v ≤ 1) :
    inBin bins k v = true ↔ k = binIndexQ bins v := by
  have hBq : (0 : ℚ) < (bins : ℚ) := by exact_mod_cast hB
  have hn0 : 0 ≤ ⌊v * (bins : ℚ)⌋ := Int.floor_nonneg.mpr (mul_nonneg h0 (le_of_lt hBq))
  have hm : ((⌊v * (bins : ℚ)⌋).toNat : ℤ) = ⌊v * (bins : ℚ)⌋ := Int.toNat_of_nonneg hn0
  unfold inBin binIndexQ
  by_cases hlast : k + 1 = bins
  · rw [if_pos hlast]
    simp only [decide_eq_true_eq]
    constructor
    · rintro ⟨hle, -⟩
      have hkz : (k : ℤ) ≤ ⌊v * (bins : ℚ)⌋ := by
        refine Int.le_floor.mpr ?_
        push_cast
        rwa [div_le_iff₀ hBq] at hle
      have hres : min (⌊v * (bins : ℚ)⌋).toNat (bins - 1) = bins - 1 :=
        Nat.min_eq_right (by omega)
      rw [hres]
      omega
    · intro hkeq
      have hkm : k ≤ (⌊v * (bins : ℚ)⌋).toNat := by
        rw [hkeq]
        exact min_le_left _ _
      have hkz : (k : ℤ) ≤ ⌊v * (bins : ℚ)⌋ := by omega
      have hkq : ((k : ℚ)) ≤ v * (bins : ℚ) := by
        have := Int.le_floor.mp hkz
        push_cast at this
        exact this
      exact ⟨(div_le_iff₀ hBq).mpr hkq, h1⟩
  · rw [if_neg hlast]
    simp only [decide_eq_true_eq]
    have hkk : k < bins - 1 := by omega
    constructor
    · rintro ⟨hle, hlt⟩
      have hkz : (k : ℤ) ≤ ⌊v * (bins : ℚ)⌋ := by
        refine Int.le_floor.mpr ?_
        push_cast
        rwa [div_le_iff₀ hBq] at hle
      have hlt2 : ⌊v * (bins : ℚ)⌋ < (k : ℤ) + 1 := by
        refine Int.floor_lt.mpr ?_
        push_cast
        rwa [lt_div_iff₀ hBq] at hlt
      rw [show (⌊v * (bins : ℚ)⌋).toNat = k by omega]
      exact (Nat.min_eq_left (by omega)).symm
    · intro hkeq
      have hkm : k ≤ (⌊v * (bins : ℚ)⌋).toNat := by
        rw [hkeq]
        exact min_le_left _ _
      have hmk : (⌊v * (bins : ℚ)⌋).toNat = k := by
        by_cases hmb : (⌊v * (bins : ℚ)⌋).toNat ≤ bins - 1
        · rw [Nat.min_eq_left hmb] at hkeq
          omega
        · rw [Nat.min_eq_right (by omega)] at hkeq
          omega
      have hfl : ⌊v * (bins : ℚ)⌋ = (k : ℤ) := by omega
      constructor
      · have := Int.le_floor.mp (le_of_eq hfl.symm)
        push_cast at this
        exact (div_le_iff₀ hBq).mpr this
      · have hlt2 : v * (bins : ℚ) < (k : ℚ) + 1 := by
          have := Int.floor_lt.mp (by omega : ⌊v * (bins : ℚ)⌋ < (k : ℤ) + 1)
          push_cast at this
          exact this
        exact (lt_div_iff₀ hBq).mpr hlt2

theorem countP_range_eq (n c : ℕ) (h : c < n) :
    (List.range n).countP (fun k => decide (k = c)) = 1 := by
  induction n with
  | zero => omega
  | succ m ih =>
    rw [List.range_succ, List.countP_append]
    by_cases hc : c < m
    · rw [ih hc]
      simp [Nat.ne_of_gt hc]
    · have hcm : c = m := by omega
      have hzero : (List.range m).countP (fun k => decide (k = c)) = 0 := by
        refine List.countP_eq_zero.mpr ?_
        intro a ha
        have := List.mem_range.mp ha
        simp only [decide_eq_true_eq]
        omega
      rw [hzero]
      simp [hcm]

theorem countP_bins (bins : ℕ) (v : ℚ) (hB : 0 < bins) (h0 : 0 ≤ v) (h1 : v ≤ 1) :
    (List.range bins).countP (fun k => inBin bins k v) = 1 := by
  have hlt : binIndexQ bins v < bins := lt_of_le_of_lt (min_le_right _ _) (by omega)
  have hcongr : ∀ k ∈ List.range bins,
      (inBin bins k v = true ↔ decide (k = binIndexQ bins v) = true) := by
    intro k hk
    simp only [decide_eq_true_eq]
    exact inBin_iff bins k v hB (List.mem_range.mp hk) h0 h1
  rw [List.countP_congr hcongr]
  exact countP_range_eq bins (binIndexQ bins v) hlt

theorem sum_map_add_nat {α : Type} (l : List α) (f g : α → ℕ) :
    (l.map (fun x => f x + g x)).sum = (l.map f).sum + (l.map g).sum := by
  induction l with
  | nil => rfl
  | cons a t ih =>
    simp only [List.map_cons, List.sum_cons, ih]
    omega

theorem sum_map_indicator {α : Type} (l : List α) (p : α → Bool) :
    (l.map (fun x => if p x then (1 : ℕ) else 0)).sum = l.countP p := by
  induction l with
  | nil => rfl
  | cons a t ih =>
    simp only [List.map_cons, List.sum_cons, ih, List.countP_cons]
    omega

/-- Each value of a list inside `[0, 1]` is counted by exactly one bin, so the
histogram counts sum to the number of values. -/
theorem histCounts_sum (vs : List ℚ) (bins : ℕ) (hB : 0 < bins)
    (hin : ∀ v ∈ vs, 0 ≤ v ∧ v ≤ 1) : (histCounts vs bins).sum = vs.length := by
  induction vs with
  | nil => simp [histCounts]
  | cons v t ih =>
    have hv := hin v (List.mem_cons_self v t)
    have ht : ∀ w ∈ t, 0 ≤ w ∧ w ≤ 1 := fun w hw => hin w (List.mem_cons_of_mem v hw)
    unfold histCounts
    simp only [List.countP_cons]
    rw [sum_map_add_nat, sum_map_indicator]
    have ihs := ih ht
    unfold histCounts at ihs
    rw [ihs, countP_bins bins v hB hv.1 hv.2]
    simp

theorem length_histCounts (vs : List ℚ) (bins : ℕ) : (histCounts vs bins).length = bins := by
  simp [histCounts]

theorem length_normHist (vs : List ℚ) (bins : ℕ) : (normHist vs bins).length = bins := by
  unfold normHist
  by_cases h : 0 < (histCounts vs bins).sum
  · rw [if_pos h, List.length_map, length_histCounts]
  · rw [if_neg h, List.length_map, length_histCounts]

theorem sum_map_castDiv (l : List ℕ) (t : ℚ) :
    (l.map (fun (c : ℕ) => (c : ℚ) / t)).sum = ((l.sum : ℕ) : ℚ) / t := by
  induction l with
  | nil => simp
  | cons a xs ih =>
    simp only [List.map_cons, List.sum_cons, ih]
    push_cast
    rw [div_add_div_same]

/-- For a non-empty list of in-range values, the normalized histogram divides
by the value count and sums to exactly 1. -/
theorem normHist_spec (vs : List ℚ) (bins : ℕ) (hB : 0 < bins) (hne : vs ≠ [])
    (hin : ∀ v ∈ vs, 0 ≤ v ∧ v ≤ 1) :
    (normHist vs bins).sum = 1 ∧
    normHist vs bins = (histCounts vs bins).map (fun (c : ℕ) => (c : ℚ) / (vs.length : ℚ)) := by
  have hsum := histCounts_sum vs bins hB hin
  have hpos : 0 < (histCounts vs bins).sum := by
    rw [hsum]
    exact List.length_pos.mpr hne
  have hlen0 : vs.length ≠ 0 := fun hc => hne (List.length_eq_zero.mp hc)
  have hq : ((vs.length : ℕ) : ℚ) ≠ 0 := Nat.cast_ne_zero.mpr hlen0
  constructor
  · unfold normHist
    rw [if_pos hpos, sum_map_castDiv, hsum, div_self hq]
  · unfold normHist
    rw [if_pos hpos, hsum]

theorem extract_take_c0 (img : Image3) (bins : ℕ) :
    (extractColorHistogram img bins).take bins = normHist (channelVals img 0) bins := by
  unfold extractColorHistogram
  rw [List.append_assoc, List.take_left' (length_normHist _ _)]

theorem extract_take_c1 (img : Image3) (bins : ℕ) :
    ((extractColorHistogram img bins).drop bins).take bins =
      normHist (channelVals img 1) bins := by
  unfold extractColorHistogram
  rw [List.append_assoc, List.drop_left' (length_normHist _ _),
    List.take_left' (length_normHist _ _)]

theorem extract_drop_c2 (img : Image3) (bins : ℕ) :
    (extractColorHistogram img bins).drop (2 * bins) = normHist (channelVals img 2) bins := by
  unfold extractColorHistogram
  exact List.drop_left'
    (by rw [List.length_append, length_normHist, length_normHist, two_mul])

/-- **C3 (amended).** Feature histogram normalization for in-range inputs:
for every rank-3 three-channel array whose values lie in `[0, 1]` (as every
preprocessed image's do) and every positive bin count `B`, the extractor
computes per channel a `B`-bin histogram over `[0, 1]` whose counts are
divided by the channel's total pixel count, and each of the 3 per-channel
length-`B` sub-vectors of the length-`3B` output sums to exactly 1 whenever
the channel is non-empty. -/
theorem C3_histogram_normalization (img : Image3) (bins : ℕ) (hB : 0 < bins)
    (h0 : ∀ v ∈ channelVals img 0, 0 ≤ v ∧ v ≤ 1)
    (h1 : ∀ v ∈ channelVals img 1, 0 ≤ v ∧ v ≤ 1)
    (h2 : ∀ v ∈ channelVals img 2, 0 ≤ v ∧ v ≤ 1) :
    (extractColorHistogram img bins).length = 3 * bins ∧
    (channelVals img 0 ≠ [] →
      ((extractColorHistogram img bins).take bins).sum = 1 ∧
      (extractColorHistogram img bins).take bins =
        (histCounts (channelVals img 0) bins).map
          (fun (c : ℕ) => (c : ℚ) / ((channelVals img 0).length : ℚ))) ∧
    (channelVals img 1 ≠ [] →
      (((extractColorHistogram img bins).drop bins).take bins).sum = 1 ∧
      ((extractColorHistogram img bins).drop bins).take bins =
        (histCounts (channelVals img 1) bins).map
          (fun (c : ℕ) => (c : ℚ) / ((channelVals img 1).length : ℚ))) ∧
    (channelVals img 2 ≠ [] →
      ((extractColorHistogram img bins).drop (2 * bins)).sum = 1 ∧
      (extractColorHistogram img bins).drop (2 * bins) =
        (histCounts (channelVals img 2) bins).map
          (fun (c : ℕ) => (c : ℚ) / ((channelVals img 2).length : ℚ))) := by
  refine ⟨?_, ?_, ?_, ?_⟩
  · unfold extractColorHistogram
    rw [List.length_append, List.length_append, length_normHist, length_normHist,
      length_normHist]
    ring
  · intro hne
    have hs := normHist_spec (channelVals img 0) bins hB hne h0
    rw [extract_take_c0]
    exact ⟨hs.1, hs.2⟩
  · intro hne
    have hs := normHist_spec (channelVals img 1) bins hB hne h1
    rw [extract_take_c1]
    exact ⟨hs.1, hs.2⟩
  · intro hne
    have hs := normHist_spec (channelVals img 2) bins hB hne h2
    rw [extract_drop_c2]
    exact ⟨hs.1, hs.2⟩

/-- Closed witness for C3 (amended): a 1×1 image with channel values
(0, 1/2, 1) and 2 bins has all three per-channel sub-vectors summing to 1. -/
theorem C3_histogram_normalization_witness :
    ((extractColorHistogram ⟨[[(0, 1/2, 1)]]⟩ 2).take 2).sum = 1 ∧
    (((extractColorHistogram ⟨[[(0, 1/2, 1)]]⟩ 2).drop 2).take 2).sum = 1 ∧
    ((extractColorHistogram ⟨[[(0, 1/2, 1)]]⟩ 2).drop (2 * 2)).sum = 1 := by
  have hch0 : channelVals ⟨[[(0, 1/2, 1)]]⟩ 0 = [0] := by simp [channelVals]
  have hch1 : channelVals ⟨[[(0, 1/2, 1)]]⟩ 1 = [1/2] := by simp [channelVals]
  have hch2 : channelVals ⟨[[(0, 1/2, 1)]]⟩ 2 = [1] := by simp [channelVals]
  have h := C3_histogram_normalization ⟨[[(0, 1/2, 1)]]⟩ 2 (by norm_num)
    (by rw [hch0]; intro v hv; rw [List.mem_singleton] at hv; subst hv; norm_num)
    (by rw [hch1]; intro v hv; rw [List.mem_singleton] at hv; subst hv; norm_num)
    (by rw [hch2]; intro v hv; rw [List.mem_singleton] at hv; subst hv; norm_num)
  exact ⟨(h.2.1 (by rw [hch0]; simp)).1, (h.2.2.1 (by rw [hch1]; simp)).1,
    (h.2.2.2 (by rw [hch2]; simp)).1⟩

/-- **C3, counterexample to the claim as frozen.**  The code divides by the
histogram's own sum (the count of pixels falling in `[0, 1]`), not by the
channel's total pixel count: a 1×1 image whose pixel value is 2 has a
non-empty channel (1 pixel) whose per-channel sub-vector sums to 0, not 1
(and not 1 within the claim's `1e-6` tolerance). -/
theorem C3_histogram_normalization_counterexample :
    channelVals ⟨[[(2, 2, 2)]]⟩ 0 = [2] ∧
    ((extractColorHistogram ⟨[[(2, 2, 2)]]⟩ 2).take 2).sum = 0 ∧
    ¬ |((extractColorHistogram ⟨[[(2, 2, 2)]]⟩ 2).take 2).sum - 1| ≤ 1 / 1000000 := by
  have hch : channelVals ⟨[[(2, 2, 2)]]⟩ 0 = [2] := by simp [channelVals]
  have hb0 : inBin 2 0 (2 : ℚ) = false := by
    unfold inBin
    rw [if_neg (by omega)]
    simp only [decide_eq_false_iff_not]
    intro hcon
    have h2 := hcon.2
    norm_num at h2
  have hb1 : inBin 2 1 (2 : ℚ) = false := by
    unfold inBin
    rw [if_pos rfl]
    simp only [decide_eq_false_iff_not]
    intro hcon
    have h2 := hcon.2
    norm_num at h2
  have hcounts : histCounts [2] 2 = [0, 0] := by
    unfold histCounts
    rw [show List.range 2 = [0, 1] from rfl]
    simp [List.countP_cons, hb0, hb1]
  have hnorm : normHist [2] 2 = [0, 0] := by
    unfold normHist
    rw [hcounts]
    norm_num
  have htake : (extractColorHistogram ⟨[[(2, 2, 2)]]⟩ 2).take 2 = [0, 0] := by
    rw [extract_take_c0, hch, hnorm]
  refine ⟨hch, ?_, ?_⟩
  · rw [htake]
    norm_num
  · rw [htake]
    intro hcon
    rw [show (([0, 0] : List ℚ)).sum = 0 by norm_num] at hcon
    rw [show |(0 : ℚ) - 1| = 1 by rw [zero_sub, abs_neg, abs_one]] at hcon
    norm_num at hcon

/-! ## Feature-matrix construction lemmas (claim C6) -/

theorem buildFeaturesGo_skip (loadImage : String → Option Image3)
    (augmentFn : ℕ → Image3 → Image3) (bins : ℕ) (augment : Bool) (augPerImage : ℕ)
    (seed : ℕ) : ∀ (idx : ℕ) (items : List (String × Label)),
    (buildFeaturesGo loadImage augmentFn bins augment augPerImage seed idx items).2.2 =
      (items.filter (fun it => (loadImage it.1).isNone)).length := by
  intro idx items
  induction items generalizing idx with
  | nil => rfl
  | cons it rest ih =>
    obtain ⟨path, label⟩ := it
    rw [buildFeaturesGo]
    cases h : loadImage path with
    | none => simp [List.filter_cons, h, ih]
    | some img => simp [List.filter_cons, h, ih]

theorem buildFeaturesGo_feat_length (loadImage : String → Option Image3)
    (augmentFn : ℕ → Image3 → Image3) (bins : ℕ) (augment : Bool) (augPerImage : ℕ)
    (seed : ℕ) : ∀ (idx : ℕ) (items : List (String × Label)),
    (buildFeaturesGo loadImage augmentFn bins augment augPerImage seed idx items).1.length =
      (items.filter (fun it => (loadImage it.1).isSome)).length *
        (1 + (if augment then augPerImage else 0)) := by
  intro idx items
  induction items generalizing idx with
  | nil => simp [buildFeaturesGo]
  | cons it rest ih =>
    obtain ⟨path, label⟩ := it
    rw [buildFeaturesGo]
    cases h : loadImage path with
    | none => simp [List.filter_cons, h, ih]
    | some img =>
      simp only [List.filter_cons, h, Option.isSome_some, if_true, List.length_cons,
        List.length_append, List.length_map, List.length_range, ih]
      by_cases ha : augment
      · simp only [ha, if_true, List.length_map, List.length_range]
        ring
      · simp only [ha, if_false, Bool.false_eq_true, List.length_nil]
        omega

theorem loadFeaturesGo_spec (loadImage : String → Option Image3) (bins : ℕ)
    (items : List (String × Label)) :
    (loadFeaturesGo loadImage bins items).2.2 =
      (items.filter (fun it => (loadImage it.1).isNone)).length ∧
    (loadFeaturesGo loadImage bins items).1 =
      items.filterMap (fun it =>
        (loadImage it.1).map (fun img => extractColorHistogram img bins)) ∧
    (loadFeaturesGo loadImage bins items).2.1 =
      (items.filter (fun it => (loadImage it.1).isSome)).map (fun it => classToIndex it.2) := by
  induction items with
  | nil => exact ⟨rfl, rfl, rfl⟩
  | cons it rest ih =>
    obtain ⟨path, label⟩ := it
    rw [loadFeaturesGo]
    cases h : loadImage path with
    | none =>
      refine ⟨?_, ?_, ?_⟩
      · simp [List.filter_cons, h, ih.1]
      · simp [List.filterMap_cons, h, ih.2.1]
      · simp [List.filter_cons, h, ih.2.2]
    | some img =>
      refine ⟨?_, ?_, ?_⟩
      · simp [List.filter_cons, h, ih.1]
      · simp [List.filterMap_cons, h, ih.2.1]
      · simp [List.filter_cons, h, ih.2.2]

/-- **C6.** Per-sample skip policy during feature-matrix construction, for
both `_build_features` (train) and `_load_features_from_manifest` (evaluate):
each failing sample increments the skip counter by exactly one and is
dropped, processing continues with the remaining samples (the surviving
features/labels are those of all loadable samples, in order), and whenever at
least one sample is loadable, no error is propagated — the functions return
normally with the skip count equal to the number of failed samples. -/
theorem C6_per_sample_skip_policy (loadImage : String → Option Image3)
    (augmentFn : ℕ → Image3 → Image3) (bins : ℕ) (augment : Bool) (augPerImage : ℕ)
    (seed : ℕ) (items : List (String × Label)) :
    (∀ idx, (buildFeaturesGo loadImage augmentFn bins augment augPerImage seed idx items).2.2 =
      (items.filter (fun it => (loadImage it.1).isNone)).length) ∧
    ((∃ it ∈ items, (loadImage it.1).isSome) →
      buildFeatures loadImage augmentFn bins augment augPerImage seed items =
        .ok (buildFeaturesGo loadImage augmentFn bins augment augPerImage seed 0 items)) ∧
    ((loadFeaturesGo loadImage bins items).2.2 =
      (items.filter (fun it => (loadImage it.1).isNone)).length) ∧
    ((loadFeaturesGo loadImage bins items).1 =
      items.filterMap (fun it =>
        (loadImage it.1).map (fun img => extractColorHistogram img bins))) ∧
    ((loadFeaturesGo loadImage bins items).2.1 =
      (items.filter (fun it => (loadImage it.1).isSome)).map (fun it => classToIndex it.2)) ∧
    ((∃ it ∈ items, (loadImage it.1).isSome) →
      loadFeaturesFromManifest loadImage bins items =
        .ok (loadFeaturesGo loadImage bins items)) := by
  have hload := loadFeaturesGo_spec loadImage bins items
  refine ⟨fun idx => buildFeaturesGo_skip loadImage augmentFn bins augment augPerImage
    seed idx items, ?_, hload.1, hload.2.1, hload.2.2, ?_⟩
  · intro ⟨it, hmem, hsome⟩
    have hfilter : it ∈ items.filter (fun it => (loadImage it.1).isSome) :=
      List.mem_filter.mpr ⟨hmem, hsome⟩
    have hpos : 0 < (items.filter (fun it => (loadImage it.1).isSome)).length :=
      List.length_pos.mpr (fun hc => by rw [hc] at hfilter; exact absurd hfilter (by simp))
    have hlen := buildFeaturesGo_feat_length loadImage augmentFn bins augment augPerImage
      seed 0 items
    have hne : ¬ (buildFeaturesGo loadImage augmentFn bins augment augPerImage
        seed 0 items).1.isEmpty := by
      rw [List.isEmpty_iff]
      intro hc
      rw [← List.length_eq_zero, hlen] at hc
      have : 0 < (1 + (if augment then augPerImage else 0)) := by
        by_cases ha : augment <;> simp [ha]
      exact absurd hc (by positivity)
    unfold buildFeatures
    rw [if_neg hne]
  · intro ⟨it, hmem, hsome⟩
    have hfilter : it ∈ items.filter (fun it => (loadImage it.1).isSome) :=
      List.mem_filter.mpr ⟨hmem, hsome⟩
    have hne : ¬ (loadFeaturesGo loadImage bins items).1.isEmpty := by
      rw [List.isEmpty_iff]
      intro hc
      rw [hload.2.1] at hc
      have := List.length_eq_zero.mpr hc
      rw [List.length_filterMap_eq_countP] at this
      have hzero := List.countP_eq_zero.mp this
      have := hzero it hmem
      simp only [Option.isSome_iff_exists] at hsome
      obtain ⟨img, himg⟩ := hsome
      exact this (by simp [himg])
    unfold loadFeaturesFromManifest
    rw [if_neg hne]

/-- Closed witness for C6: one undecodable file and one decodable file give
skip count 1 and a normal (non-error) return in both pipelines. -/
theorem C6_per_sample_skip_policy_witness :
    (buildFeaturesGo (fun p => if p = "good" then some ⟨[]⟩ else none) (fun _ img => img)
      8 true 1 0 0 [("bad", Label.cat), ("good", Label.dog)]).2.2 = 1 ∧
    buildFeatures (fun p => if p = "good" then some ⟨[]⟩ else none) (fun _ img => img)
      8 true 1 0 [("bad", Label.cat), ("good", Label.dog)] =
      .ok (buildFeaturesGo (fun p => if p = "good" then some ⟨[]⟩ else none)
        (fun _ img => img) 8 true 1 0 0 [("bad", Label.cat), ("good", Label.dog)]) ∧
    (loadFeaturesGo (fun p => if p = "good" then some ⟨[]⟩ else none) 8
      [("bad", Label.cat), ("good", Label.dog)]).2.2 = 1 ∧
    loadFeaturesFromManifest (fun p => if p = "good" then some ⟨[]⟩ else none) 8
      [("bad", Label.cat), ("good", Label.dog)] =
      .ok (loadFeaturesGo (fun p => if p = "good" then some ⟨[]⟩ else none) 8
        [("bad", Label.cat), ("good", Label.dog)]) := by
  have h := C6_per_sample_skip_policy (fun p => if p = "good" then some ⟨[]⟩ else none)
    (fun _ img => img) 8 true 1 0 [("bad", Label.cat), ("good", Label.dog)]
  have hex : ∃ it ∈ [("bad", Label.cat), ("good", Label.dog)],
      (((fun p => if p = "good" then some (Image3.mk []) else none) : String → Option Image3)
        it.1).isSome := by
    refine ⟨("good", Label.dog), by simp, ?_⟩
    simp
  refine ⟨?_, h.2.1 hex, ?_, h.2.2.2.2.2 hex⟩
  · rw [h.1 0]
    simp [List.filter_cons]
  · rw [h.2.2.1]
    simp [List.filter_cons]

/-! ## Stable argmax (claim C7) -/

theorem argmaxGo_spec (l : List ℚ) : ∀ (acc : List ℚ) (bi : ℕ) (bv : ℚ),
    bi < acc.length → acc.getD bi 0 = bv →
    (∀ j, j < acc.length → acc.getD j 0 ≤ bv) →
    (∀ j, j < bi → acc.getD j 0 < bv) →
    argmaxGo l acc.length bi bv < (acc ++ l).length ∧
    (∀ j, j < (acc ++ l).length →
      (acc ++ l).getD j 0 ≤ (acc ++ l).getD (argmaxGo l acc.length bi bv) 0) ∧
    (∀ j, j < argmaxGo l acc.length bi bv →
      (acc ++ l).getD j 0 < (acc ++ l).getD (argmaxGo l acc.length bi bv) 0) := by
  induction l with
  | nil =>
    intro acc bi bv hbi hbv hmax hstrict
    rw [argmaxGo, List.append_nil]
    refine ⟨hbi, ?_, ?_⟩
    · intro j hj
      rw [hbv]
      exact hmax j hj
    · intro j hj
      rw [hbv]
      exact hstrict j hj
  | cons v rest ih =>
    intro acc bi bv hbi hbv hmax hstrict
    rw [argmaxGo]
    have hkey : acc ++ v :: rest = (acc ++ [v]) ++ rest := by simp
    have hlen : (acc ++ [v]).length = acc.length + 1 := by simp
    by_cases hlt : bv < v
    · rw [if_pos hlt]
      have h1 : acc.length < (acc ++ [v]).length := by simp
      have h2 : (acc ++ [v]).getD acc.length 0 = v := by
        rw [List.getD_append_right _ _ _ _ (le_refl _)]
        simp
      have h3 : ∀ j, j < (acc ++ [v]).length → (acc ++ [v]).getD j 0 ≤ v := by
        intro j hj
        rw [hlen] at hj
        rcases Nat.lt_or_ge j acc.length with hj2 | hj2
        · rw [List.getD_append _ _ _ _ hj2]
          exact le_of_lt (lt_of_le_of_lt (hmax j hj2) hlt)
        · have hje : j = acc.length := by omega
          rw [hje, h2]
      have h4 : ∀ j, j < acc.length → (acc ++ [v]).getD j 0 < v := by
        intro j hj
        rw [List.getD_append _ _ _ _ hj]
        exact lt_of_le_of_lt (hmax j hj) hlt
      have hres := ih (acc ++ [v]) acc.length v h1 h2 h3 h4
      rw [hlen] at hres
      rw [hkey]
      exact hres
    · rw [if_neg hlt]
      have hvle : v ≤ bv := not_lt.mp hlt
      have h1 : bi < (acc ++ [v]).length := by
        rw [hlen]
        omega
      have h2 : (acc ++ [v]).getD bi 0 = bv := by
        rw [List.getD_append _ _ _ _ hbi]
        exact hbv
      have h3 : ∀ j, j < (acc ++ [v]).length → (acc ++ [v]).getD j 0 ≤ bv := by
        intro j hj
        rw [hlen] at hj
        rcases Nat.lt_or_ge j acc.length with hj2 | hj2
        · rw [List.getD_append _ _ _ _ hj2]
          exact hmax j hj2
        · have hje : j = acc.length := by omega
          rw [hje, List.getD_append_right _ _ _ _ (le_refl _)]
          simpa using hvle
      have h4 : ∀ j, j < bi → (acc ++ [v]).getD j 0 < bv := by
        intro j hj
        rw [List.getD_append _ _ _ _ (lt_trans hj hbi)]
        exact hstrict j hj
      have hres := ih (acc ++ [v]) bi bv h1 h2 h3 h4
      rw [hlen] at hres
      rw [hkey]
      exact hres

/-- `np.argmax` returns a valid index attaining the maximum, and every earlier
index holds a strictly smaller value (ties resolve to the lowest index). -/
theorem argmax_spec (scores : List ℚ) (hne : scores ≠ []) :
    argmax scores < scores.length ∧
    (∀ j, j < scores.length → scores.getD j 0 ≤ scores.getD (argmax scores) 0) ∧
    (∀ j, j < argmax scores → scores.getD j 0 < scores.getD (argmax scores) 0) := by
  cases scores with
  | nil => exact absurd rfl hne
  | cons v rest =>
    have hres := argmaxGo_spec rest [v] 0 v (by simp) (by simp)
      (by
        intro j hj
        simp only [List.length_singleton] at hj
        have hj0 : j = 0 := by omega
        simp [hj0])
      (by intro j hj; omega)
    rw [show ([v] ++ rest) = v :: rest from rfl, show ([v] : List ℚ).length = 1 from rfl]
      at hres
    exact hres

theorem resolveClassLabels_length (indexToClass : ℤ → Option String)
    (classes : Option (List ℤ)) (n : ℕ) :
    (resolveClassLabels indexToClass classes n).length = n := by
  unfold resolveClassLabels
  by_cases h : ((classes.getD ((List.range n).map (fun (i : ℕ) => (i : ℤ)))).map
      (fun c => (indexToClass c).getD (toString c))).length ≠ n
  · rw [if_pos h, List.length_map, List.length_range]
  · rw [if_neg h]
    exact not_ne_iff.mp h

/-- **C7.** Stable argmax selection: `predict_image` returns the label at the
argmax index of the classifier's probability row (with the labels resolved
from the bundle) and that class's probability; the argmax index is valid,
attains the maximum, and every lower index holds a strictly smaller
probability — ties resolve to the lowest class index.  The resolved label
list always has exactly one label per probability column. -/
theorem C7_stable_argmax (preprocessO : Image3 → Image3) (b : BundleM) (img : Image3)
    (hne : b.proba (extractColorHistogram (preprocessO img) b.bins) ≠ []) :
    predictImageM preprocessO b img =
      ((resolveClassLabels b.indexToClass b.classes
          (b.proba (extractColorHistogram (preprocessO img) b.bins)).length).getD
        (argmax (b.proba (extractColorHistogram (preprocessO img) b.bins))) "",
       (b.proba (extractColorHistogram (preprocessO img) b.bins)).getD
        (argmax (b.proba (extractColorHistogram (preprocessO img) b.bins))) 0,
       (resolveClassLabels b.indexToClass b.classes
          (b.proba (extractColorHistogram (preprocessO img) b.bins)).length).zip
        (b.proba (extractColorHistogram (preprocessO img) b.bins))) ∧
    (resolveClassLabels b.indexToClass b.classes
      (b.proba (extractColorHistogram (preprocessO img) b.bins)).length).length =
      (b.proba (extractColorHistogram (preprocessO img) b.bins)).length ∧
    argmax (b.proba (extractColorHistogram (preprocessO img) b.bins)) <
      (b.proba (extractColorHistogram (preprocessO img) b.bins)).length ∧
    (∀ j, j < (b.proba (extractColorHistogram (preprocessO img) b.bins)).length →
      (b.proba (extractColorHistogram (preprocessO img) b.bins)).getD j 0 ≤
        (b.proba (extractColorHistogram (preprocessO img) b.bins)).getD
          (argmax (b.proba (extractColorHistogram (preprocessO img) b.bins))) 0) ∧
    (∀ j, j < argmax (b.proba (extractColorHistogram (preprocessO img) b.bins)) →
      (b.proba (extractColorHistogram (preprocessO img) b.bins)).getD j 0 <
        (b.proba (extractColorHistogram (preprocessO img) b.bins)).getD
          (argmax (b.proba (extractColorHistogram (preprocessO img) b.bins))) 0) := by
  have hspec := argmax_spec (b.proba (extractColorHistogram (preprocessO img) b.bins)) hne
  exact ⟨rfl, resolveClassLabels_length _ _ _, hspec.1, hspec.2.1, hspec.2.2⟩

/-- Closed witness for C7, the spec's dummy-classifier scenario: probabilities
[0.2, 0.8] for classes [0, 1] mapped to cat/dog yield label "dog" with
probability 0.8 (exactly, hence within 1e-6), for any input image. -/
theorem C7_stable_argmax_witness :
    predictImageM id
      ⟨fun _ => [1/5, 4/5], some [0, 1],
        fun c => if c = 0 then some "cat" else if c = 1 then some "dog" else none, 8⟩
      ⟨[]⟩ =
      ("dog", 4/5, [("cat", 1/5), ("dog", 4/5)]) := by
  have h := C7_stable_argmax id
    ⟨fun _ => [1/5, 4/5], some [0, 1],
      fun c => if c = 0 then some "cat" else if c = 1 then some "dog" else none, 8⟩
    ⟨[]⟩ (by simp)
  rw [h.1]
  have hargmax : argmax [(1 : ℚ)/5, 4/5] = 1 := by
    rw [show argmax [(1 : ℚ)/5, 4/5] = argmaxGo [(4 : ℚ)/5] 1 0 (1/5) from rfl]
    rw [argmaxGo, if_pos (by norm_num)]
    rfl
  have hlabels : resolveClassLabels
      (fun c => if c = 0 then some "cat" else if c = 1 then some "dog" else none)
      (some [0, 1]) ([(1 : ℚ)/5, 4/5]).length = ["cat", "dog"] := by
    unfold resolveClassLabels
    norm_num
  simp only [hargmax, hlabels]
  norm_num [List.getD, List.zip]

/-! ## Prediction input rejection (claim C8) -/

/-- **C8.** Prediction input rejection: for every bundle, predicting on an
empty byte payload fails with the empty-payload error, and predicting on
non-empty undecodable bytes fails with the decode error; in neither case is
a prediction result returned. -/
theorem C8_prediction_input_rejection (decodeO : List ℕ → Option Image3)
    (preprocessO : Image3 → Image3) (b : BundleM) (payload : List ℕ) :
    (payload = [] → predictBytesM decodeO preprocessO b payload = .error .emptyPayload) ∧
    (payload ≠ [] → decodeO payload = none →
      predictBytesM decodeO preprocessO b payload = .error .decodeError) ∧
    ((payload = [] ∨ decodeO payload = none) →
      ∀ res, predictBytesM decodeO preprocessO b payload ≠ .ok res) := by
  have hempty : payload = [] →
      predictBytesM decodeO preprocessO b payload = .error .emptyPayload := by
    intro h
    subst h
    rfl
  have hdecode : payload ≠ [] → decodeO payload = none →
      predictBytesM decodeO preprocessO b payload = .error .decodeError := by
    intro h hn
    unfold predictBytesM
    rw [if_neg (by simpa [List.isEmpty_iff] using h), hn]
  refine ⟨hempty, hdecode, ?_⟩
  rintro (h | h) res
  · rw [hempty h]
    simp
  · by_cases hp : payload = []
    · rw [hempty hp]
      simp
    · rw [hdecode hp h]
      simp

/-- Closed witness for C8: an always-failing decoder rejects the empty
payload with the empty-payload error and a non-empty payload with the
decode error. -/
theorem C8_prediction_input_rejection_witness :
    predictBytesM (fun _ => none) id ⟨fun _ => [], none, fun _ => none, 8⟩ [] =
      .error .emptyPayload ∧
    predictBytesM (fun _ => none) id ⟨fun _ => [], none, fun _ => none, 8⟩ [0] =
      .error .decodeError :=
  ⟨(C8_prediction_input_rejection (fun _ => none) id ⟨fun _ => [], none, fun _ => none, 8⟩
      []).1 rfl,
   (C8_prediction_input_rejection (fun _ => none) id ⟨fun _ => [], none, fun _ => none, 8⟩
      [0]).2.1 (by simp) rfl⟩

end CatsDogs
